import Mathlib

/-!
Verification of the motion-and-timing core of LaserGCODETools.

The development shallowly embeds, over exact arithmetic:

* the motion-program parser (`parseGCode`, from `GCodeParser.ts`; the modal
  feed-rate state and the per-segment source-command back-reference are not in
  the staged `GCodeParser.ts` and are modelled from the specification, which
  the parser tests and `GCodeCorrector.ts` rely on);
* the centroid computation (`getCentroid`, from `GCodeParser.ts`);
* the speed corrector (`applyCorrection`, from `GCodeCorrector.ts`);
* the time estimator (`estimateTime`, from `TimeEstimator.ts`), over `ℝ`
  because its kinematic model uses square roots and arc-cosines.

Coordinates, feed rates and parameters are modelled as rationals (`ℚ`): the
source's IEEE doubles are treated as exact numbers, which keeps every parsing
and text-rewriting definition computable and decidable.  Lines of text are
`List Char`.
-/

set_option maxHeartbeats 1600000

attribute [local semireducible] Rat.add Rat.mul Rat.sub Rat.inv

abbrev Line := List Char

/-- JS `text.split('\n')`: `""` splits to `[""]`, a trailing separator yields a
trailing empty line. -/
def splitNl : List Char → List Line
  | [] => [[]]
  | c :: rest =>
    if c = '\n' then [] :: splitNl rest
    else
      match splitNl rest with
      | [] => [[c]]
      | l :: ls => (c :: l) :: ls

/-- ASCII whitespace trimmed by JS `String.prototype.trim` (lines produced by
`splitNl` contain no `'\n'`, so it need not be listed). -/
def jsWs (c : Char) : Bool :=
  c = ' ' || c = '\t' || c = '\r' || c = '\x0b' || c = '\x0c'

/-- JS `s.trim()`. -/
def trimLine (l : Line) : Line :=
  ((l.dropWhile jsWs).reverse.dropWhile jsWs).reverse

/-- Decimal digit run to a natural number. -/
def digitsToNat (ds : List Char) : ℕ :=
  ds.foldl (fun n c => 10 * n + (c.toNat - '0'.toNat)) 0

/-- Numeric value of a JS decimal literal `sign? intDigits ('.' fracDigits)?`. -/
def numVal (neg : Bool) (intDs fracDs : List Char) : ℚ :=
  let v : ℚ := (digitsToNat intDs : ℚ) + (digitsToNat fracDs : ℚ) / (10 : ℚ) ^ fracDs.length
  if neg then -v else v

/-- Match of the regex `[+-]?\d*\.?\d+` at the head of `s` (the parameter-value
scanner of `GCodeParser.parseCommand`): the value read by `parseFloat` and the
number of characters consumed, or `none`.  The optional dot group only matches
when at least one digit follows it, as regex backtracking demands. -/
def numToken (s : List Char) : Option (ℚ × ℕ) :=
  let sgn : Bool × ℕ × List Char :=
    match s with
    | '+' :: t => (false, 1, t)
    | '-' :: t => (true, 1, t)
    | _ => (false, 0, s)
  match sgn with
  | (neg, k, s1) =>
    let intDs := s1.takeWhile Char.isDigit
    let s2 := s1.drop intDs.length
    match s2 with
    | '.' :: t =>
      let fracDs := t.takeWhile Char.isDigit
      if fracDs = [] then
        if intDs = [] then none
        else some (numVal neg intDs [], k + intDs.length)
      else some (numVal neg intDs fracDs, k + intDs.length + 1 + fracDs.length)
    | _ =>
      if intDs = [] then none
      else some (numVal neg intDs [], k + intDs.length)

/-- Letters of the parameter alphabet `[XYZIJKF]` of `GCodeParser.parseCommand`. -/
def paramLetter (c : Char) : Bool :=
  c = 'X' || c = 'Y' || c = 'Z' || c = 'I' || c = 'J' || c = 'K' || c = 'F'

/-- Left-to-right scan of `matchAll(/([XYZIJKF])([+-]?\d*\.?\d+)/g)`: at a
parameter letter immediately followed by a number the pair is recorded and the
scan resumes after the number; otherwise the scan advances one character.  The
scan consumes at least one character per step, so the structural fuel (the
remaining length) never runs out when started at the string's length. -/
def scanParamsGo : ℕ → List Char → List (Char × ℚ)
  | 0, _ => []
  | _, [] => []
  | fuel + 1, c :: rest =>
    if paramLetter c then
      match numToken rest with
      | some (v, k) => (c, v) :: scanParamsGo fuel (rest.drop k)
      | none => scanParamsGo fuel rest
    else scanParamsGo fuel rest

/-- The parameter scan of `GCodeParser.parseCommand`. -/
def scanParams (s : List Char) : List (Char × ℚ) :=
  scanParamsGo s.length s

/-- Last-written value of a key in a parameter list (JS object assignment:
later occurrences of the same letter overwrite earlier ones). -/
def getParam (c : Char) (ps : List (Char × ℚ)) : Option ℚ :=
  ps.foldl (fun acc e => if e.1 = c then some e.2 else acc) none

/-- Match of the regex `^([GM]\d+)` (the command token of
`GCodeParser.parseCommand`). -/
def matchCode : List Char → Option (List Char)
  | [] => none
  | c :: rest =>
    if c = 'G' ∨ c = 'M' then
      let ds := rest.takeWhile Char.isDigit
      if ds = [] then none else some (c :: ds)
    else none

/-- A parsed command line (the source's `GCodeCommand`; the recorded comment
text is omitted, no verified component reads it). -/
structure GCodeCommand where
  code : List Char
  params : List (Char × ℚ)
  lineNumber : ℕ
deriving DecidableEq

/-- A 2D point (the source's `Point2D`). -/
structure Point2D where
  x : ℚ
  y : ℚ
deriving DecidableEq

/-- A parsed motion segment (the source's `GCodePath`).  `start`, `end_` and
`isRapid` follow the staged `GCodeParser.ts`.  Modelled from the spec:
`feedrate` (the sticky modal feed rate, `undefined` until an `F` parameter is
seen) and `command` (the back-reference to the originating line, always present
on an emitted segment); the modal laser state is omitted, no claim under
verification reads it. -/
structure GCodePath where
  start : Point2D
  end_ : Point2D
  isRapid : Bool
  feedrate : Option ℚ
  command : GCodeCommand
deriving DecidableEq

/-- Running modal parser state: current position and current feed rate
(`feedrate` modelled from the spec). -/
structure ParserState where
  pos : Point2D
  feed : Option ℚ
deriving DecidableEq

/-- Comment stripping and trimming of one raw line (`parseGCode`'s loop body):
everything from the first `';'` on is dropped, the remainder is trimmed. -/
def cleanLine (l : Line) : Line :=
  trimLine (l.takeWhile (fun c => c ≠ ';'))

/-- The source's `parseCommand` applied to line `idx`: `none` when the cleaned
line is empty or its leading token does not match `^([GM]\d+)`. -/
def parseLineCmd (idx : ℕ) (l : Line) : Option GCodeCommand :=
  let clean := cleanLine l
  if clean = [] then none
  else
    match matchCode clean with
    | none => none
    | some code => some ⟨code, scanParams clean, idx⟩

/-- Codes that move (`G0`/`G1` in `processCommand`). -/
def isMoveCode (code : List Char) : Bool :=
  code = ['G', '0'] || code = ['G', '1']

/-- The source's `processCommand` on one parsed command: every parsed command
updates the modal feed rate from its `F` parameter (modelled from the spec's
sticky-state contract); a `G0`/`G1` command moves the position to the
coordinates present in the command and emits one segment. -/
def stepCommand (st : ParserState) (c : GCodeCommand) : Option GCodePath × ParserState :=
  let feed1 : Option ℚ :=
    match getParam 'F' c.params with
    | some v => some v
    | none => st.feed
  if isMoveCode c.code then
    let nx : ℚ :=
      match getParam 'X' c.params with
      | some v => v
      | none => st.pos.x
    let ny : ℚ :=
      match getParam 'Y' c.params with
      | some v => v
      | none => st.pos.y
    let np : Point2D := ⟨nx, ny⟩
    (some ⟨st.pos, np, decide (c.code = ['G', '0']), feed1, c⟩, ⟨np, feed1⟩)
  else
    (none, ⟨st.pos, feed1⟩)

/-- The parser's line loop on indexed lines: emitted segments and recognized
commands in program order, and the final modal state. -/
def runLines (st : ParserState) : List (ℕ × Line) → List GCodePath × List GCodeCommand × ParserState
  | [] => ([], [], st)
  | (i, l) :: rest =>
    match parseLineCmd i l with
    | none => runLines st rest
    | some c =>
      match stepCommand st c with
      | (p?, st1) =>
        match runLines st1 rest with
        | (ps, cs, stf) => (p?.toList ++ ps, c :: cs, stf)

/-- The source's `parseGCode`: split into lines, parse each, thread the modal
state from the origin. -/
def parseGCode (text : List Char) : List GCodePath × List GCodeCommand × ParserState :=
  runLines ⟨⟨0, 0⟩, none⟩ (splitNl text).enum

/-- Segment sequence of a program text (`parser.getPaths()` after `parseGCode`). -/
def parsePaths (text : List Char) : List GCodePath :=
  (parseGCode text).1

/-- Command sequence of a program text (`parser.getCommands()` after `parseGCode`). -/
def parseCmds (text : List Char) : List GCodeCommand :=
  (parseGCode text).2.1

/-! Centroid (`GCodeParser.getCentroid`). -/

/-- JS `Math.round` (also the tie rule of `Number.prototype.toFixed` on a
non-negative argument): round half towards positive infinity. -/
def jsRound (q : ℚ) : ℤ :=
  ⌊q + 1 / 2⌋

/-- Dedup key of one coordinate under `toFixed(4)` string keying: the sign
rendered by `toFixed` (negative inputs are rendered as `'-'` plus the rendering
of the negated value, so `-0.00001` keys as `"-0.0000"`, distinct from
`"0.0000"`) together with the magnitude rounded to 4 decimal places. -/
def fixed4Key (q : ℚ) : Bool × ℤ :=
  if q < 0 then (true, jsRound (10000 * (-q))) else (false, jsRound (10000 * q))

/-- Dedup key of a point: the `(x.toFixed(4), y.toFixed(4))` string key of
`getCentroid`, represented by the two coordinate keys. -/
def ptKey (p : Point2D) : (Bool × ℤ) × (Bool × ℤ) :=
  (fixed4Key p.x, fixed4Key p.y)

/-- JS `Map.prototype.set`: an existing key keeps its place and takes the new
value, a new key is appended. -/
def insertPt (m : List (((Bool × ℤ) × (Bool × ℤ)) × Point2D)) (p : Point2D) :
    List (((Bool × ℤ) × (Bool × ℤ)) × Point2D) :=
  if m.any (fun e => e.1 = ptKey p) then
    m.map (fun e => if e.1 = ptKey p then (e.1, p) else e)
  else m ++ [(ptKey p, p)]

/-- Endpoints of the segment sequence in insertion order (`getCentroid` inserts
each segment's start, then its end). -/
def endpointsOf (paths : List GCodePath) : List Point2D :=
  paths.foldr (fun p acc => p.start :: p.end_ :: acc) []

/-- The source's `getCentroid`: `{0,0}` on an empty segment sequence, else the
mean of the values of the key-deduplicated endpoint map. -/
def getCentroid (paths : List GCodePath) : Point2D :=
  if paths.isEmpty then ⟨0, 0⟩
  else
    let m := (endpointsOf paths).foldl insertPt []
    let pts := m.map (fun e => e.2)
    ⟨(pts.map (fun p => p.x)).sum / pts.length, (pts.map (fun p => p.y)).sum / pts.length⟩

/-- Spec-side dedup of an endpoint list: keep an endpoint only when no later
endpoint has the same rounded key, so each unique (rounded) position counts
once, represented by its last occurrence. -/
def dedupLast : List Point2D → List Point2D
  | [] => []
  | p :: rest =>
    if rest.any (fun q => ptKey q = ptKey p) then dedupLast rest
    else p :: dedupLast rest

/-- Spec-side centroid: the arithmetic mean of the set of unique endpoint
positions (deduplicated by rounding to 4 decimal places), `{0,0}` when no
segments exist. -/
def centroidSpec (paths : List GCodePath) : Point2D :=
  if paths.isEmpty then ⟨0, 0⟩
  else
    let u := dedupLast (endpointsOf paths)
    ⟨(u.map (fun p => p.x)).sum / u.length, (u.map (fun p => p.y)).sum / u.length⟩

/-! Speed corrector (`GCodeCorrector.applyCorrection`). -/

/-- Correction axis (`options.axis`). -/
inductive Axis
  | X
  | Y
deriving DecidableEq

/-- Orientation weight of a controlled segment (`GCodeCorrector`): with
`dx = |end.x - start.x|` and `dy = |end.y - start.y|`, `dy / (dx + dy)` for
axis `X` and `dx / (dx + dy)` for axis `Y`, and `0` when `dx + dy = 0`. -/
def orientationFactor (ax : Axis) (p : GCodePath) : ℚ :=
  let dx := |p.end_.x - p.start.x|
  let dy := |p.end_.y - p.start.y|
  if 0 < dx + dy then
    match ax with
    | Axis.X => dy / (dx + dy)
    | Axis.Y => dx / (dx + dy)
  else 0

/-- Effective correction factor of a segment: `0` for rapid moves, else the
coefficient times the orientation weight. -/
def corrFactor (c : ℚ) (ax : Axis) (p : GCodePath) : ℚ :=
  if p.isRapid then 0 else c * orientationFactor ax p

/-- Corrected feed rate of a controlled segment:
`(feedrate || 0) * (1 - effectiveCorrection)`. -/
def correctedFeed (c : ℚ) (ax : Axis) (p : GCodePath) : ℚ :=
  (p.feedrate.getD 0) * (1 - c * orientationFactor ax p)

/-- Decimal rendering of an integer, as JS template interpolation renders it. -/
def intChars (n : ℤ) : List Char :=
  if n < 0 then '-' :: Nat.toDigits 10 n.natAbs else Nat.toDigits 10 n.toNat

/-- Match of `\d+(\.\d+)?` at the head of `s`: the characters the regex
consumes are dropped and the rest returned, or `none` when `s` does not start
with a digit.  The optional fraction group needs a digit after the dot. -/
def digitsNumSuffix (s : List Char) : Option (List Char) :=
  let ds := s.takeWhile Char.isDigit
  if ds = [] then none
  else
    let s1 := s.drop ds.length
    match s1 with
    | '.' :: t =>
      let fs := t.takeWhile Char.isDigit
      if fs = [] then some s1 else some (t.drop fs.length)
    | _ => some s1

/-- Leftmost match of the regex `F\d+(\.\d+)?` in a line: the text before the
match and the text after it, or `none` when the line has no such token. -/
def findFTok : Line → Option (Line × Line)
  | [] => none
  | c :: rest =>
    if c = 'F' then
      match digitsNumSuffix rest with
      | some rest1 => some ([], rest1)
      | none =>
        match findFTok rest with
        | some (pre, post) => some (c :: pre, post)
        | none => none
    else
      match findFTok rest with
      | some (pre, post) => some (c :: pre, post)
      | none => none

/-- JS `line.replace(/F\d+(\.\d+)?/, 'F' + tok)`: the first matching token is
replaced, a line with no match is returned unchanged. -/
def replaceFTok (l : Line) (tok : List Char) : Line :=
  match findFTok l with
  | some (pre, post) => pre ++ ('F' :: tok) ++ post
  | none => l

/-- Feed-rate append branch of `applyCorrection`: before a trailing comment the
token is inserted as `" F<tok> "`, else `" F<tok>"` goes at line end. -/
def appendFTok (l : Line) (tok : List Char) : Line :=
  if l.any (fun c => c = ';') then
    (l.takeWhile (fun c => c ≠ ';')) ++ (' ' :: 'F' :: tok ++ [' ']) ++ (l.dropWhile (fun c => c ≠ ';'))
  else l ++ (' ' :: 'F' :: tok)

/-- Rewrite of the source line of a corrected controlled segment: replace the
first `F\d+(\.\d+)?` token by the rounded corrected feed rate when the parsed
command carries an `F` parameter, else append a new token. -/
def rewriteLine (c : ℚ) (ax : Axis) (p : GCodePath) (l : Line) : Line :=
  let tok := intChars (jsRound (correctedFeed c ax p))
  if (getParam 'F' p.command.params).isSome then replaceFTok l tok
  else appendFTok l tok

/-- Fold state of the corrector's path loop: corrected segments, correction
factors, emitted output lines and the source-line cursor. -/
structure CorrState where
  cps : List GCodePath
  cfs : List ℚ
  out : List Line
  idx : ℕ
deriving DecidableEq

/-- One iteration of `applyCorrection`'s path loop over source lines `L`: a
rapid segment copies every line up to and including its own and is pushed
unchanged with factor `0`; a controlled segment copies the lines before its
own, rewrites its own line, and is pushed with the corrected feed rate. -/
def corrStep (L : List Line) (c : ℚ) (ax : Axis) (st : CorrState) (p : GCodePath) : CorrState :=
  if p.isRapid then
    let n := p.command.lineNumber
    { cps := st.cps ++ [p]
      cfs := st.cfs ++ [0]
      out := st.out ++ (L.drop st.idx).take (n + 1 - st.idx)
      idx := max st.idx (n + 1) }
  else
    let n := p.command.lineNumber
    let j := max st.idx n
    let cf := correctedFeed c ax p
    { cps := st.cps ++ [{ p with feedrate := some cf }]
      cfs := st.cfs ++ [corrFactor c ax p]
      out := st.out ++ (L.drop st.idx).take (n - st.idx) ++ [rewriteLine c ax p (L.getD j [])]
      idx := j + 1 }

/-- Join of output lines: the source appends `'\n'` after every emitted line. -/
def joinAll (ls : List Line) : List Char :=
  ls.foldr (fun l acc => l ++ '\n' :: acc) []

/-- Result record of `applyCorrection`. -/
structure CorrectionResult where
  originalPaths : List GCodePath
  correctedPaths : List GCodePath
  correctionFactors : List ℚ
  correctedGCode : List Char
deriving DecidableEq

/-- The source's `applyCorrection`: parse, loop over the segments with the
line cursor, then copy the remaining lines verbatim. -/
def applyCorrection (text : List Char) (c : ℚ) (ax : Axis) : CorrectionResult :=
  let paths := parsePaths text
  let L := splitNl text
  let st := paths.foldl (corrStep L c ax) ⟨[], [], [], 0⟩
  { originalPaths := paths
    correctedPaths := st.cps
    correctionFactors := st.cfs
    correctedGCode := joinAll (st.out ++ L.drop st.idx) }

/-! Time estimator (`TimeEstimator.ts`), over `ℝ`: the kinematic model uses
square roots and arc-cosines. -/

/-- The source's `calculateDistance`. -/
noncomputable def calculateDistance (x1 y1 x2 y2 : ℝ) : ℝ :=
  Real.sqrt ((x2 - x1) ^ 2 + (y2 - y1) ^ 2)

/-- The source's `calculateDirection`: the unit direction vector, `(0,0)` for a
zero-length segment. -/
noncomputable def calculateDirection (x1 y1 x2 y2 : ℝ) : ℝ × ℝ :=
  let d := calculateDistance x1 y1 x2 y2
  if d = 0 then (0, 0) else ((x2 - x1) / d, (y2 - y1) / d)

/-- The source's `calculateAngle`: arc-cosine of the clamped dot product. -/
noncomputable def calculateAngle (d1 d2 : ℝ × ℝ) : ℝ :=
  Real.arccos (min (max (d1.1 * d2.1 + d1.2 * d2.2) (-1)) 1)

/-- `MIN_DIRECTION_CHANGE_ANGLE`: ten degrees in radians. -/
noncomputable def minDirectionChangeAngle : ℝ :=
  10 * (Real.pi / 180)

/-- `JUNCTION_DEVIATION`. -/
noncomputable def junctionDeviation : ℝ :=
  (5 : ℝ) / 100

/-- The source's `calculateJunctionVelocity`: feed rates arrive in units per
minute; a near-straight junction keeps the slower of the two speeds; otherwise
the centripetal junction speed, clamped to both segment speeds. -/
noncomputable def calculateJunctionVelocity (prevDir nextDir : ℝ × ℝ)
    (prevFeedrate nextFeedrate accel : ℝ) : ℝ :=
  let prevVelocity := prevFeedrate / 60
  let nextVelocity := nextFeedrate / 60
  let angle := calculateAngle prevDir nextDir
  if angle < minDirectionChangeAngle then min prevVelocity nextVelocity
  else
    let junctionVelocity := Real.sqrt (accel * junctionDeviation / (1 - Real.cos angle))
    min junctionVelocity (min prevVelocity nextVelocity)

/-- The source's `calculateSegmentTimeWithJunction`: trapezoidal profile when
the segment can reach cruise speed, else a triangular profile with the peak
speed it can reach, with a uniform-speed fallback guard. -/
noncomputable def calculateSegmentTimeWithJunction (distance feedrate accel
    entryVelocity exitVelocity : ℝ) (isRapid : Bool) : ℝ :=
  let effectiveFeedrate := if isRapid then 5000 else feedrate
  if distance ≤ 0 ∨ effectiveFeedrate ≤ 0 ∨ accel ≤ 0 then 0
  else
    let maxVelocity := effectiveFeedrate / 60
    let vEntry := min entryVelocity maxVelocity
    let vExit := min exitVelocity maxVelocity
    let accelDistance := (maxVelocity ^ 2 - vEntry ^ 2) / (2 * accel)
    let decelDistance := (maxVelocity ^ 2 - vExit ^ 2) / (2 * accel)
    if accelDistance + decelDistance ≤ distance then
      (maxVelocity - vEntry) / accel + (distance - accelDistance - decelDistance) / maxVelocity +
        (maxVelocity - vExit) / accel
    else
      let vPeakSq := (2 * accel * distance + vEntry ^ 2 + vExit ^ 2) / 2
      if vPeakSq ≤ 0 then distance / ((vEntry + vExit) / 2)
      else
        let vPeak := Real.sqrt vPeakSq
        (vPeak - vEntry) / accel + (vPeak - vExit) / accel

/-- Euclidean length of a segment. -/
noncomputable def pathDistance (p : GCodePath) : ℝ :=
  calculateDistance (p.start.x : ℝ) (p.start.y : ℝ) (p.end_.x : ℝ) (p.end_.y : ℝ)

/-- Direction vector of a segment. -/
noncomputable def pathDirection (p : GCodePath) : ℝ × ℝ :=
  calculateDirection (p.start.x : ℝ) (p.start.y : ℝ) (p.end_.x : ℝ) (p.end_.y : ℝ)

/-- Feed rate a segment contributes to the kinematics (`feedrate || 0`), in
units per minute. -/
noncomputable def pathFeed (p : GCodePath) : ℝ :=
  ((p.feedrate.getD 0 : ℚ) : ℝ)

/-- Time of one segment in the estimator's loop: a zero-length segment is
skipped; the entry velocity is zero at the first segment or across a
rapid/controlled type change, else the junction velocity with the previous
segment; the exit velocity symmetrically with the next segment. -/
noncomputable def segTime (prevP : Option GCodePath) (cur : GCodePath)
    (nextP : Option GCodePath) (accel : ℝ) : ℝ :=
  let distance := pathDistance cur
  if distance = 0 then 0
  else
    let curDir := pathDirection cur
    let entryVelocity : ℝ :=
      match prevP with
      | none => 0
      | some pp =>
        if pp.isRapid ≠ cur.isRapid then 0
        else calculateJunctionVelocity (pathDirection pp) curDir (pathFeed pp) (pathFeed cur) accel
    let exitVelocity : ℝ :=
      match nextP with
      | none => 0
      | some np =>
        if np.isRapid ≠ cur.isRapid then 0
        else calculateJunctionVelocity curDir (pathDirection np) (pathFeed cur) (pathFeed np) accel
    calculateSegmentTimeWithJunction distance (pathFeed cur) accel entryVelocity exitVelocity cur.isRapid

/-- The estimator's loop: left-to-right accumulation of total, rapid and
cutting time, threading the previous segment. -/
noncomputable def estLoop (accel : ℝ) : Option GCodePath → ℝ × ℝ × ℝ → List GCodePath → ℝ × ℝ × ℝ
  | _, acc, [] => acc
  | prevP, (tt, rt, ct), cur :: rest =>
    let t := segTime prevP cur rest.head? accel
    estLoop accel (some cur)
      (tt + t, if cur.isRapid then rt + t else rt, if cur.isRapid then ct else ct + t) rest

/-- Result record of `estimateTime` (`TimeEstimationResult`): the comparison
fields are `none` when the source leaves them `undefined`. -/
structure TimeEstimationResult where
  totalTime : ℝ
  rapidTime : ℝ
  cuttingTime : ℝ
  originalTotalTime : Option ℝ
  timeSavings : Option ℝ

/-- The source's `estimateTime`: an empty segment list returns the zero result;
otherwise the loop's sums, and — only when a non-empty `originalPaths` is
supplied — a recursive estimate of the original run and the clamped savings. -/
noncomputable def estimateTime (paths : List GCodePath) (accel : ℝ)
    (originalPaths : Option (List GCodePath)) : TimeEstimationResult :=
  if paths.isEmpty then ⟨0, 0, 0, none, none⟩
  else
    let r := estLoop accel none (0, 0, 0) paths
    match originalPaths with
    | none => ⟨r.1, r.2.1, r.2.2, none, none⟩
    | some op =>
      if op.isEmpty then ⟨r.1, r.2.1, r.2.2, none, none⟩
      else
        let o := estimateTime op accel none
        ⟨r.1, r.2.1, r.2.2, some o.totalTime, some (max 0 (o.totalTime - r.1))⟩
termination_by (match originalPaths with | none => 0 | some _ => 1)
decreasing_by simp

/-! Spec-side definitions the claims are checked against. -/

/-- Feed rate set by the last command of `cmds` that carries an `F` parameter,
`none` when no command does. -/
def lastFParam (cmds : List GCodeCommand) : Option ℚ :=
  cmds.foldl
    (fun acc c =>
      match getParam 'F' c.params with
      | some v => some v
      | none => acc)
    none

/-- Spec-side modal feed rates: for each move command, the feed rate set by the
last command up to and including it that specified an `F` parameter, given the
commands already `seen`. -/
def stickyFeeds (seen : List GCodeCommand) : List GCodeCommand → List (Option ℚ)
  | [] => []
  | c :: rest =>
    (if isMoveCode c.code then [lastFParam (seen ++ [c])] else []) ++
      stickyFeeds (seen ++ [c]) rest

/-- Observable content of a segment apart from its source back-reference (which
necessarily changes when lines are renumbered). -/
def strippedPath (p : GCodePath) : Point2D × Point2D × Bool × Option ℚ :=
  (p.start, p.end_, p.isRapid, p.feedrate)

/-- A line whose leading token matches a recognized command form (the line
index does not influence recognition). -/
def recognizedLine (l : Line) : Bool :=
  (parseLineCmd 0 l).isSome

/-- Join of lines with newline separators (JS `Array.prototype.join('\n')`). -/
def joinNl : List Line → List Char
  | [] => []
  | [l] => l
  | l :: rest => l ++ '\n' :: joinNl rest

/-- Spec-side corrected text, line by line: the line of a corrected controlled
segment is rewritten, every other line is kept verbatim. -/
def expLines (c : ℚ) (ax : Axis) (paths : List GCodePath) : ℕ → List Line → List Line
  | _, [] => []
  | i, l :: ls =>
    (match paths.find? (fun p => !p.isRapid && decide (p.command.lineNumber = i)) with
     | some p => rewriteLine c ax p l
     | none => l) :: expLines c ax paths (i + 1) ls

/-! Theorems. -/

theorem estLoop_partition (accel : ℝ) (l : List GCodePath) :
    ∀ (prevP : Option GCodePath) (tt rt ct : ℝ), tt = rt + ct →
      (estLoop accel prevP (tt, rt, ct) l).1 =
        (estLoop accel prevP (tt, rt, ct) l).2.1 + (estLoop accel prevP (tt, rt, ct) l).2.2 := by
  induction l with
  | nil => intro prevP tt rt ct h; simpa [estLoop] using h
  | cons cur rest ih =>
    intro prevP tt rt ct h
    by_cases hr : cur.isRapid
    · simpa [estLoop, hr] using ih (some cur) _ _ _ (by rw [h]; ring)
    · simpa [estLoop, hr] using ih (some cur) _ _ _ (by rw [h]; ring)

/-- C10: the total time reported by `estimateTime` is always the sum of the
rapid-time and cutting-time buckets: every segment's time is accumulated into
the total and into exactly one bucket according to its `isRapid` flag. -/
theorem c10_total_partitions_into_buckets (paths : List GCodePath) (accel : ℝ)
    (orig : Option (List GCodePath)) :
    (estimateTime paths accel orig).totalTime =
      (estimateTime paths accel orig).rapidTime + (estimateTime paths accel orig).cuttingTime := by
  have key : (estLoop accel none (0, 0, 0) paths).1 =
      (estLoop accel none (0, 0, 0) paths).2.1 + (estLoop accel none (0, 0, 0) paths).2.2 :=
    estLoop_partition accel paths none 0 0 0 (by ring)
  rw [estimateTime]
  by_cases hp : paths.isEmpty
  · simp [hp]
  · rcases orig with _ | op
    · simpa [hp] using key
    · by_cases hop : op.isEmpty
      · simpa [hp, hop] using key
      · simpa [hp, hop] using key

theorem estimateTime_totalTime (paths : List GCodePath) (accel : ℝ)
    (orig : Option (List GCodePath)) :
    (estimateTime paths accel orig).totalTime =
      if paths.isEmpty then 0 else (estLoop accel none (0, 0, 0) paths).1 := by
  rw [estimateTime]
  by_cases hp : paths.isEmpty
  · simp [hp]
  · rcases orig with _ | op
    · simp [hp]
    · by_cases hop : op.isEmpty <;> simp [hp, hop]

theorem estimateTime_comparison_fields (segs orig : List GCodePath) (accel : ℝ) :
    ((estimateTime segs accel (some orig)).originalTotalTime =
      if segs = [] ∨ orig = [] then none
      else some (estimateTime orig accel none).totalTime) ∧
    ((estimateTime segs accel (some orig)).timeSavings =
      if segs = [] ∨ orig = [] then none
      else some (max 0 ((estimateTime orig accel none).totalTime -
        (estimateTime segs accel (some orig)).totalTime))) := by
  by_cases hs : segs = []
  · rw [estimateTime]
    simp [hs]
  · by_cases ho : orig = []
    · constructor <;> rw [estimateTime] <;> simp [hs, ho]
    · have hT := estimateTime_totalTime segs accel (some orig)
      have hTo := estimateTime_totalTime orig accel none
      simp only [List.isEmpty_iff, hs, ho, if_false] at hT hTo
      constructor
      · conv_lhs => rw [estimateTime]
        simp [hs, ho]
      · conv_lhs => rw [estimateTime]
        rw [hT, hTo]
        simp [hs, ho]
        rw [hTo]
        simp [ho]

/-- C6 (amended): the comparison fields are reported exactly when both the
estimated segment list and the supplied original list are non-empty; then
`originalTotalTime` is the estimate of the originals alone,
`timeSavings = max 0 (originalTotalTime - totalTime)`, and the reported saving
(read with default `0`) is never negative.  With an empty list on either side
the source leaves both fields `undefined`. -/
theorem c6_comparison_fields_when_nonempty (segs orig : List GCodePath) (accel : ℝ) :
    ((estimateTime segs accel (some orig)).originalTotalTime =
      if segs = [] ∨ orig = [] then none
      else some (estimateTime orig accel none).totalTime) ∧
    ((estimateTime segs accel (some orig)).timeSavings =
      if segs = [] ∨ orig = [] then none
      else some (max 0 ((estimateTime orig accel none).totalTime -
        (estimateTime segs accel (some orig)).totalTime))) ∧
    0 ≤ (estimateTime segs accel (some orig)).timeSavings.getD 0 := by
  obtain ⟨h1, h2⟩ := estimateTime_comparison_fields segs orig accel
  refine ⟨h1, h2, ?_⟩
  rw [h2]
  by_cases h : segs = [] ∨ orig = []
  · simp [h]
  · simp [h, le_max_left]

/-- C6 counterexample: `originalSegments` supplied but empty — the comparison
fields stay `undefined` (`none`), although the estimate of the empty original
run alone is `0`, so neither `originalTotalTime` nor `timeSavings` is reported
as the claim demands. -/
theorem c6_cex_empty_original_supplied :
    (estimateTime [⟨⟨0, 0⟩, ⟨1, 0⟩, false, some 60, ⟨['G', '1'], [], 0⟩⟩] 1
        (some [])).originalTotalTime = none ∧
    (estimateTime [⟨⟨0, 0⟩, ⟨1, 0⟩, false, some 60, ⟨['G', '1'], [], 0⟩⟩] 1
        (some [])).timeSavings = none ∧
    (estimateTime ([] : List GCodePath) 1 none).totalTime = 0 := by
  refine ⟨?_, ?_, ?_⟩ <;> rw [estimateTime] <;> simp

/-- C7 counterexample: with fixed geometry (`distance = 1`), acceleration `1`
and entry and exit velocities `0`, a controlled segment at feed rate `0` takes
time `0` (the non-positive-feed guard) while at feed rate `60` it takes time
`2`: segment time is not non-increasing in the feed rate. -/
theorem c7_cex_time_increases_from_zero_feed :
    calculateSegmentTimeWithJunction 1 0 1 0 0 false = 0 ∧
    calculateSegmentTimeWithJunction 1 60 1 0 0 false = 2 ∧
    ¬ (calculateSegmentTimeWithJunction 1 60 1 0 0 false ≤
        calculateSegmentTimeWithJunction 1 0 1 0 0 false) := by
  have h0 : calculateSegmentTimeWithJunction 1 0 1 0 0 false = 0 := by
    rw [calculateSegmentTimeWithJunction]
    norm_num
  have h60 : calculateSegmentTimeWithJunction 1 60 1 0 0 false = 2 := by
    rw [calculateSegmentTimeWithJunction]
    norm_num
  exact ⟨h0, h60, by rw [h0, h60]; norm_num⟩

theorem trapezoid_time_antitone (a d ve vx w1 w2 : ℝ) (ha : 0 < a) (h1 : 0 < w1)
    (h12 : w1 ≤ w2) (hK : w2 ^ 2 ≤ a * d + (ve ^ 2 + vx ^ 2) / 2) :
    (w2 - ve) / a + (d - (w2 ^ 2 - ve ^ 2) / (2 * a) - (w2 ^ 2 - vx ^ 2) / (2 * a)) / w2 +
        (w2 - vx) / a ≤
      (w1 - ve) / a + (d - (w1 ^ 2 - ve ^ 2) / (2 * a) - (w1 ^ 2 - vx ^ 2) / (2 * a)) / w1 +
        (w1 - vx) / a := by
  have h2 : 0 < w2 := lt_of_lt_of_le h1 h12
  have key : ((w1 - ve) / a + (d - (w1 ^ 2 - ve ^ 2) / (2 * a) - (w1 ^ 2 - vx ^ 2) / (2 * a)) / w1 +
        (w1 - vx) / a) -
      ((w2 - ve) / a + (d - (w2 ^ 2 - ve ^ 2) / (2 * a) - (w2 ^ 2 - vx ^ 2) / (2 * a)) / w2 +
        (w2 - vx) / a) =
      (w2 - w1) * ((a * d + (ve ^ 2 + vx ^ 2) / 2) - w1 * w2) / (a * w1 * w2) := by
    field_simp
    ring
  have hprod : w1 * w2 ≤ a * d + (ve ^ 2 + vx ^ 2) / 2 := by
    nlinarith [mul_le_mul_of_nonneg_right h12 h2.le]
  have hnum : 0 ≤ (w2 - w1) * ((a * d + (ve ^ 2 + vx ^ 2) / 2) - w1 * w2) :=
    mul_nonneg (by linarith) (by linarith)
  have hden : 0 < a * w1 * w2 := by positivity
  have hfrac := div_nonneg hnum hden.le
  linarith [key, hfrac]

theorem calcSegTime_controlled_eq (d f a ve vx : ℝ) (hd : 0 < d) (hf : 0 < f) (ha : 0 < a)
    (hve : ve ≤ f / 60) (hvx : vx ≤ f / 60) :
    calculateSegmentTimeWithJunction d f a ve vx false =
      if ((f / 60) ^ 2 - ve ^ 2) / (2 * a) + ((f / 60) ^ 2 - vx ^ 2) / (2 * a) ≤ d then
        (f / 60 - ve) / a +
          (d - ((f / 60) ^ 2 - ve ^ 2) / (2 * a) - ((f / 60) ^ 2 - vx ^ 2) / (2 * a)) / (f / 60) +
          (f / 60 - vx) / a
      else
        (Real.sqrt ((2 * a * d + ve ^ 2 + vx ^ 2) / 2) - ve) / a +
          (Real.sqrt ((2 * a * d + ve ^ 2 + vx ^ 2) / 2) - vx) / a := by
  rw [calculateSegmentTimeWithJunction]
  simp only [Bool.false_eq_true, if_false]
  rw [if_neg (by push_neg; exact ⟨hd, hf, ha⟩)]
  simp only [min_eq_left hve, min_eq_left hvx]
  by_cases hB : ((f / 60) ^ 2 - ve ^ 2) / (2 * a) + ((f / 60) ^ 2 - vx ^ 2) / (2 * a) ≤ d
  · rw [if_pos hB, if_pos hB]
  · rw [if_neg hB, if_neg hB,
      if_neg (not_le.mpr (by positivity : (0 : ℝ) < (2 * a * d + ve ^ 2 + vx ^ 2) / 2))]

/-- C7 (amended): per-segment time is non-increasing in the feed rate of a
controlled segment provided the feed rate is positive and the fixed entry and
exit velocities do not exceed the smaller feed rate's cruise velocity (feed
rate over 60) — the regime the estimator itself supplies, since junction
velocities are clamped to both adjacent cruise velocities.  Without these
provisos the time can increase: the non-positive-feed guard returns `0`, and
entry velocities above the cruise velocity are clamped into a regime where a
larger feed rate lengthens the profile. -/
theorem c7_segment_time_antitone_in_feedrate (d a ve vx f1 f2 : ℝ) (hd : 0 < d) (ha : 0 < a)
    (hf1 : 0 < f1) (h12 : f1 ≤ f2) (hve : ve ≤ f1 / 60) (hvx : vx ≤ f1 / 60) :
    calculateSegmentTimeWithJunction d f2 a ve vx false ≤
      calculateSegmentTimeWithJunction d f1 a ve vx false := by
  have hf2 : 0 < f2 := lt_of_lt_of_le hf1 h12
  have hV1 : 0 < f1 / 60 := by positivity
  have hV12 : f1 / 60 ≤ f2 / 60 := by linarith
  have hve2 : ve ≤ f2 / 60 := le_trans hve hV12
  have hvx2 : vx ≤ f2 / 60 := le_trans hvx hV12
  have hKiff : ∀ V : ℝ, ((V ^ 2 - ve ^ 2) / (2 * a) + (V ^ 2 - vx ^ 2) / (2 * a) ≤ d ↔
      V ^ 2 ≤ a * d + (ve ^ 2 + vx ^ 2) / 2) := by
    intro V
    rw [div_add_div_same, div_le_iff₀ (by positivity : (0 : ℝ) < 2 * a)]
    constructor <;> intro h <;> nlinarith
  rw [calcSegTime_controlled_eq d f2 a ve vx hd hf2 ha hve2 hvx2,
    calcSegTime_controlled_eq d f1 a ve vx hd hf1 ha hve hvx]
  by_cases hB2 : (((f2 / 60) ^ 2 - ve ^ 2) / (2 * a) + ((f2 / 60) ^ 2 - vx ^ 2) / (2 * a) ≤ d)
  · have hB1 : (((f1 / 60) ^ 2 - ve ^ 2) / (2 * a) + ((f1 / 60) ^ 2 - vx ^ 2) / (2 * a) ≤ d) := by
      rw [hKiff]
      have := (hKiff (f2 / 60)).mp hB2
      nlinarith
    rw [if_pos hB2, if_pos hB1]
    exact trapezoid_time_antitone a d ve vx (f1 / 60) (f2 / 60) ha hV1 hV12
      ((hKiff (f2 / 60)).mp hB2)
  · rw [if_neg hB2]
    have hKpos : (0 : ℝ) < (2 * a * d + ve ^ 2 + vx ^ 2) / 2 := by positivity
    by_cases hB1 : (((f1 / 60) ^ 2 - ve ^ 2) / (2 * a) + ((f1 / 60) ^ 2 - vx ^ 2) / (2 * a) ≤ d)
    · rw [if_pos hB1]
      set W := Real.sqrt ((2 * a * d + ve ^ 2 + vx ^ 2) / 2) with hWdef
      have hW2 : W ^ 2 = (2 * a * d + ve ^ 2 + vx ^ 2) / 2 := Real.sq_sqrt hKpos.le
      have hV1W : f1 / 60 ≤ W := by
        rw [hWdef, show f1 / 60 = Real.sqrt ((f1 / 60) ^ 2) from (Real.sqrt_sq hV1.le).symm]
        apply Real.sqrt_le_sqrt
        have := (hKiff (f1 / 60)).mp hB1
        nlinarith
      have hmid : d - (W ^ 2 - ve ^ 2) / (2 * a) - (W ^ 2 - vx ^ 2) / (2 * a) = 0 := by
        rw [hW2]
        field_simp
        ring
      have hform : (W - ve) / a + (W - vx) / a =
          (W - ve) / a + (d - (W ^ 2 - ve ^ 2) / (2 * a) - (W ^ 2 - vx ^ 2) / (2 * a)) / W +
            (W - vx) / a := by
        rw [hmid]
        simp
      rw [hform]
      exact trapezoid_time_antitone a d ve vx (f1 / 60) W ha hV1 hV1W (by rw [hW2]; linarith)
    · rw [if_neg hB1]

/-- C7 witness: doubling the feed rate from 60 to 120 at distance 1,
acceleration 1 and entry and exit velocities 0 does not increase the time. -/
theorem c7_segment_time_antitone_witness :
    calculateSegmentTimeWithJunction 1 120 1 0 0 false ≤
      calculateSegmentTimeWithJunction 1 60 1 0 0 false :=
  c7_segment_time_antitone_in_feedrate 1 1 0 0 60 120 (by norm_num) (by norm_num)
    (by norm_num) (by norm_num) (by norm_num) (by norm_num)

theorem corr_foldl_factors (L : List Line) (c : ℚ) (ax : Axis) (paths : List GCodePath) :
    ∀ st : CorrState, (paths.foldl (corrStep L c ax) st).cfs = st.cfs ++ paths.map (corrFactor c ax) := by
  induction paths with
  | nil => intro st; simp
  | cons p rest ih =>
    intro st
    rw [List.foldl_cons, ih]
    by_cases hr : p.isRapid
    · simp [corrStep, hr, corrFactor]
    · simp [corrStep, hr]

theorem corr_foldl_paths (L : List Line) (c : ℚ) (ax : Axis) (paths : List GCodePath) :
    ∀ st : CorrState, (paths.foldl (corrStep L c ax) st).cps =
      st.cps ++ paths.map (fun p =>
        if p.isRapid then p else { p with feedrate := some (correctedFeed c ax p) }) := by
  induction paths with
  | nil => intro st; simp
  | cons p rest ih =>
    intro st
    rw [List.foldl_cons, ih]
    by_cases hr : p.isRapid
    · simp [corrStep, hr]
    · simp [corrStep, hr]

theorem applyCorrection_factors (text : List Char) (c : ℚ) (ax : Axis) :
    (applyCorrection text c ax).correctionFactors = (parsePaths text).map (corrFactor c ax) := by
  rw [applyCorrection]
  simpa using corr_foldl_factors (splitNl text) c ax (parsePaths text) ⟨[], [], [], 0⟩

theorem applyCorrection_paths (text : List Char) (c : ℚ) (ax : Axis) :
    (applyCorrection text c ax).correctedPaths = (parsePaths text).map (fun p =>
      if p.isRapid then p else { p with feedrate := some (correctedFeed c ax p) }) := by
  rw [applyCorrection]
  simpa using corr_foldl_paths (splitNl text) c ax (parsePaths text) ⟨[], [], [], 0⟩

/-- C4: the corrector assigns each rapid segment factor `0` and each controlled
segment the factor `coefficient * weight` with the orientation weight of
`orientationFactor` (`dy/(dx+dy)` for axis X, `dx/(dx+dy)` for axis Y, `0` on a
zero-length segment), and sets the corrected feed rate to
`(feedrate || 0) * (1 - factor)`; in particular on axis X a purely horizontal
controlled segment gets factor `0` and a purely vertical one the full
coefficient. -/
theorem c4_orientation_weight_factors (text : List Char) (c : ℚ) (ax : Axis) :
    ((applyCorrection text c ax).correctionFactors =
      (parsePaths text).map (corrFactor c ax)) ∧
    ((applyCorrection text c ax).correctedPaths.map (fun p => p.feedrate) =
      (parsePaths text).map (fun p =>
        if p.isRapid then p.feedrate
        else some ((p.feedrate.getD 0) * (1 - corrFactor c ax p)))) ∧
    (∀ p : GCodePath, p.isRapid = true → corrFactor c ax p = 0) ∧
    (∀ p : GCodePath, p.isRapid = false → p.end_.x = p.start.x → p.end_.y = p.start.y →
      corrFactor c ax p = 0) ∧
    (∀ p : GCodePath, p.isRapid = false → p.end_.y = p.start.y → p.end_.x ≠ p.start.x →
      corrFactor c Axis.X p = 0) ∧
    (∀ p : GCodePath, p.isRapid = false → p.end_.x = p.start.x → p.end_.y ≠ p.start.y →
      corrFactor c Axis.X p = c) := by
  refine ⟨applyCorrection_factors text c ax, ?_, ?_, ?_, ?_, ?_⟩
  · rw [applyCorrection_paths text c ax, List.map_map]
    refine List.map_congr_left ?_
    intro p _
    by_cases hr : p.isRapid
    · simp [hr]
    · simp [hr, correctedFeed, corrFactor]
  · intro p hp
    simp [corrFactor, hp]
  · intro p hp hx hy
    simp [corrFactor, hp, orientationFactor, hx, hy]
  · intro p hp hy hx
    have hdy : |p.end_.y - p.start.y| = 0 := by rw [hy]; simp
    have hdx : 0 < |p.end_.x - p.start.x| := by
      rw [abs_pos]
      exact sub_ne_zero.mpr hx
    simp only [corrFactor, hp, Bool.false_eq_true, if_false, orientationFactor]
    rw [hdy]
    rw [if_pos (by linarith)]
    simp
  · intro p hp hx hy
    have hdx : |p.end_.x - p.start.x| = 0 := by rw [hx]; simp
    have hdy : 0 < |p.end_.y - p.start.y| := by
      rw [abs_pos]
      exact sub_ne_zero.mpr hy
    simp only [corrFactor, hp, Bool.false_eq_true, if_false, orientationFactor]
    rw [hdx]
    rw [if_pos (by linarith)]
    simp
    rw [div_self (by linarith)]
    simp

/-- C4 witness: on `G0 X5 / G1 Y7 / G1 X9 Y7` with coefficient `1/2` on axis X,
the factors are `0` (rapid), `1/2` (purely vertical controlled segment, full
coefficient) and `0` (purely horizontal controlled segment). -/
theorem c4_orientation_weight_factors_witness :
    (applyCorrection (("G0 X5\nG1 Y7 F100\nG1 X9 Y7").toList) (1 / 2) Axis.X).correctionFactors =
      [0, 1 / 2, 0] := by
  have h := (c4_orientation_weight_factors (("G0 X5\nG1 Y7 F100\nG1 X9 Y7").toList)
    (1 / 2) Axis.X).1
  rw [h]
  decide

/-- C1 counterexample: the line `G1 Y10 F+500` hosts a controlled segment whose
parsed `F` parameter is `500` and whose corrected feed rate is `250`
(coefficient `1/2`, axis X, purely vertical segment), yet the corrected text
reproduces the line unchanged — the replacement regex `F\d+` does not match the
signed token `F+500`, so the feed-rate token is neither replaced by `F250` nor
appended. -/
theorem c1_cex_signed_feed_token_not_replaced :
    (applyCorrection (("G1 Y10 F+500").toList) (1 / 2) Axis.X).correctedGCode =
      ("G1 Y10 F+500\n").toList ∧
    (applyCorrection (("G1 Y10 F+500").toList) (1 / 2) Axis.X).correctedPaths.map
      (fun p => p.feedrate) = [some 250] ∧
    (applyCorrection (("G1 Y10 F+500").toList) (1 / 2) Axis.X).originalPaths.map
      (fun p => getParam 'F' p.command.params) = [some 500] ∧
    findFTok (("G1 Y10 F250").toList) ≠ none := by
  refine ⟨by decide, by decide, by decide, by decide⟩

/-- C5 counterexample: at coefficient `0` a controlled segment with an unset
feed rate keeps `feedrate = undefined` in `originalSegments` but gets
`feedrate = 0` in `correctedSegments`, and the corrected text gains a new
`F0` token — the run is not a no-op as claimed. -/
theorem c5_cex_undefined_feedrate_becomes_zero :
    (applyCorrection (("G1 X10").toList) 0 Axis.X).originalPaths.map
      (fun p => p.feedrate) = [none] ∧
    (applyCorrection (("G1 X10").toList) 0 Axis.X).correctedPaths.map
      (fun p => p.feedrate) = [some 0] ∧
    (applyCorrection (("G1 X10").toList) 0 Axis.X).correctedGCode =
      ("G1 X10 F0\n").toList ∧
    (some (0 : ℚ) ≠ (none : Option ℚ)) := by
  refine ⟨by decide, by decide, by decide, by decide⟩

theorem runLines_start_chain (pairs : List (ℕ × Line)) :
    ∀ st : ParserState, ((runLines st pairs).1).map (fun p => p.start) =
      (st.pos :: ((runLines st pairs).1).map (fun p => p.end_)).dropLast := by
  induction pairs with
  | nil => intro st; simp [runLines]
  | cons il rest ih =>
    rcases il with ⟨i, l⟩
    intro st
    rw [runLines]
    cases hc : parseLineCmd i l with
    | none => exact ih st
    | some c =>
      by_cases hm : isMoveCode c.code = true
      · simp only [stepCommand, hm, if_true]
        rcases hr : runLines
            ⟨⟨match getParam 'X' c.params with
              | some v => v
              | none => st.pos.x,
              match getParam 'Y' c.params with
              | some v => v
              | none => st.pos.y⟩,
              match getParam 'F' c.params with
              | some v => some v
              | none => st.feed⟩ rest with ⟨ps, cs, stf⟩
        have := ih ⟨⟨match getParam 'X' c.params with
              | some v => v
              | none => st.pos.x,
              match getParam 'Y' c.params with
              | some v => v
              | none => st.pos.y⟩,
              match getParam 'F' c.params with
              | some v => some v
              | none => st.feed⟩
        rw [hr] at this
        simp only [Option.toList_some, List.cons_append, List.nil_append, List.map_cons]
        rw [this]
        rcases ps with _ | ⟨p, ps'⟩ <;> simp
      · simp only [stepCommand, hm]
        simp only [Bool.false_eq_true, if_false]
        have := ih ⟨st.pos, match getParam 'F' c.params with
              | some v => some v
              | none => st.feed⟩
        rcases hr : runLines ⟨st.pos, match getParam 'F' c.params with
              | some v => some v
              | none => st.feed⟩ rest with ⟨ps, cs, stf⟩
        rw [hr] at this
        simpa using this

/-- C3: the segment sequence chains — written as one equation, the list of
segment starts is the origin `{0,0}` followed by the segment ends, with the
last end dropped; so `segment[0].start = {0,0}` when segments exist and
`segment[i].start = segment[i-1].end` for `i > 0`. -/
theorem c3_segments_chain_from_origin (text : List Char) :
    (parsePaths text).map (fun p => p.start) =
      ((⟨0, 0⟩ : Point2D) :: (parsePaths text).map (fun p => p.end_)).dropLast :=
  runLines_start_chain (splitNl text).enum ⟨⟨0, 0⟩, none⟩

theorem lastFParam_append (cmds : List GCodeCommand) (c : GCodeCommand) :
    lastFParam (cmds ++ [c]) =
      match getParam 'F' c.params with
      | some v => some v
      | none => lastFParam cmds := by
  rw [lastFParam, lastFParam, List.foldl_append]
  rcases hf : getParam 'F' c.params with _ | v <;> simp [hf]

theorem stickyFeeds_runLines (pairs : List (ℕ × Line)) :
    ∀ (st : ParserState) (seen : List GCodeCommand), st.feed = lastFParam seen →
      ((runLines st pairs).1).map (fun p => p.feedrate) =
        stickyFeeds seen (runLines st pairs).2.1 := by
  induction pairs with
  | nil => intro st seen h; simp [runLines, stickyFeeds]
  | cons il rest ih =>
    rcases il with ⟨i, l⟩
    intro st seen h
    rw [runLines]
    cases hc : parseLineCmd i l with
    | none => exact ih st seen h
    | some c =>
      have hfeed : (match getParam 'F' c.params with
          | some v => some v
          | none => st.feed) = lastFParam (seen ++ [c]) := by
        rw [lastFParam_append, h]
      by_cases hm : isMoveCode c.code = true
      · simp only [stepCommand, hm, if_true]
        rcases hr : runLines
            ⟨⟨match getParam 'X' c.params with
              | some v => v
              | none => st.pos.x,
              match getParam 'Y' c.params with
              | some v => v
              | none => st.pos.y⟩,
              match getParam 'F' c.params with
              | some v => some v
              | none => st.feed⟩ rest with ⟨ps, cs, stf⟩
        have hih := ih ⟨⟨match getParam 'X' c.params with
              | some v => v
              | none => st.pos.x,
              match getParam 'Y' c.params with
              | some v => v
              | none => st.pos.y⟩,
              match getParam 'F' c.params with
              | some v => some v
              | none => st.feed⟩ (seen ++ [c]) hfeed
        rw [hr] at hih
        simp only [Option.toList_some, List.cons_append, List.nil_append, List.map_cons]
        rw [hih, stickyFeeds]
        simp only [hm, if_true]
        rw [hfeed]
        simp
      · simp only [stepCommand, hm]
        simp only [Bool.false_eq_true, if_false]
        rcases hr : runLines ⟨st.pos, match getParam 'F' c.params with
              | some v => some v
              | none => st.feed⟩ rest with ⟨ps, cs, stf⟩
        have hih := ih ⟨st.pos, match getParam 'F' c.params with
              | some v => some v
              | none => st.feed⟩ (seen ++ [c]) hfeed
        rw [hr] at hih
        rw [stickyFeeds]
        simp only [hm]
        simpa using hih

/-- C2 (spec-modelled): every segment the parser emits carries as `feedrate`
the modal feed rate in force at its command — the `F` value of the last parsed
command up to and including its own that specified one, and `undefined` when no
`F` parameter has been seen. -/
theorem c2_feedrate_is_modal_sticky (text : List Char) :
    (parsePaths text).map (fun p => p.feedrate) = stickyFeeds [] (parseCmds text) :=
  stickyFeeds_runLines (splitNl text).enum ⟨⟨0, 0⟩, none⟩ [] rfl

theorem parseLineCmd_idx (i : ℕ) (l : Line) :
    parseLineCmd i l = (parseLineCmd 0 l).map (fun c => ⟨c.code, c.params, i⟩) := by
  rw [parseLineCmd, parseLineCmd]
  by_cases h : cleanLine l = []
  · simp [h]
  · simp only [h, if_false]
    cases matchCode (cleanLine l) <;> simp

theorem runLines_filter_paths (pairs : List (ℕ × Line)) :
    ∀ st : ParserState, (runLines st pairs).1 =
      (runLines st (pairs.filter (fun il => recognizedLine il.2))).1 := by
  induction pairs with
  | nil => intro st; simp
  | cons il rest ih =>
    rcases il with ⟨i, l⟩
    intro st
    by_cases hrec : recognizedLine l = true
    · rw [List.filter_cons_of_pos (by simpa using hrec), runLines, runLines]
      cases hc : parseLineCmd i l with
      | none => exact ih st
      | some c =>
        rcases hs : stepCommand st c with ⟨p?, st1⟩
        rcases h1 : runLines st1 rest with ⟨ps, cs, stf⟩
        rcases h2 : runLines st1 (rest.filter (fun il => recognizedLine il.2)) with ⟨ps2, cs2, stf2⟩
        have heq := ih st1
        rw [h1, h2] at heq
        simp only at heq
        simp only [hs, h1, h2, heq]
    · rw [List.filter_cons_of_neg (by simpa using hrec), runLines]
      have hc : parseLineCmd i l = none := by
        rw [parseLineCmd_idx]
        rcases h0 : parseLineCmd 0 l with _ | c
        · rfl
        · exact absurd (by simp [recognizedLine, h0]) hrec
      rw [hc]
      exact ih st

theorem toList_map_of_map_eq (f : GCodePath → Point2D × Point2D × Bool × Option ℚ)
    (o1 o2 : Option GCodePath) (h : o1.map f = o2.map f) :
    o1.toList.map f = o2.toList.map f := by
  cases o1 <;> cases o2 <;> simp_all

theorem stepCommand_idx (st : ParserState) (cd : List Char) (ps : List (Char × ℚ)) (i j : ℕ) :
    (stepCommand st ⟨cd, ps, i⟩).1.map strippedPath = (stepCommand st ⟨cd, ps, j⟩).1.map strippedPath ∧
      (stepCommand st ⟨cd, ps, i⟩).2 = (stepCommand st ⟨cd, ps, j⟩).2 := by
  rw [stepCommand, stepCommand]
  by_cases hm : isMoveCode cd = true
  · simp [hm, strippedPath]
  · simp [hm]

theorem runLines_stripped_reindex (pairs1 : List (ℕ × Line)) :
    ∀ pairs2 : List (ℕ × Line), pairs1.map (fun il => il.2) = pairs2.map (fun il => il.2) →
      ∀ st : ParserState, ((runLines st pairs1).1).map strippedPath =
        ((runLines st pairs2).1).map strippedPath := by
  induction pairs1 with
  | nil =>
    intro pairs2 h st
    rcases pairs2 with _ | ⟨x, xs⟩
    · rfl
    · simp at h
  | cons il rest ih =>
    rcases il with ⟨i, l⟩
    intro pairs2 h st
    rcases pairs2 with _ | ⟨⟨j, l2⟩, rest2⟩
    · simp at h
    · simp only [List.map_cons, List.cons.injEq] at h
      obtain ⟨hl, hrest⟩ := h
      subst hl
      rw [runLines, runLines, parseLineCmd_idx i l, parseLineCmd_idx j l]
      cases h0 : parseLineCmd 0 l with
      | none => simpa using ih rest2 hrest st
      | some c =>
        simp only [Option.map_some']
        obtain ⟨hp, hst⟩ := stepCommand_idx st c.code c.params i j
        rcases hsi : stepCommand st ⟨c.code, c.params, i⟩ with ⟨pi, sti⟩
        rcases hsj : stepCommand st ⟨c.code, c.params, j⟩ with ⟨pj, stj⟩
        rw [hsi, hsj] at hp hst
        simp only at hp hst
        subst hst
        rcases h1 : runLines sti rest with ⟨ps, cs, stf⟩
        rcases h2 : runLines sti rest2 with ⟨ps2, cs2, stf2⟩
        have hih := ih rest2 hrest sti
        rw [h1, h2] at hih
        simp only [hsi, hsj, h1, h2, List.map_append, hih]
        rw [toList_map_of_map_eq strippedPath _ _ hp]


theorem splitNl_ne_nil (s : List Char) : splitNl s ≠ [] := by
  induction s with
  | nil => simp [splitNl]
  | cons c rest ih =>
    rw [splitNl]
    by_cases h : c = '\n'
    · simp [h]
    · simp only [h, if_false]
      rcases hs : splitNl rest with _ | ⟨l, ls⟩ <;> simp

theorem splitNl_no_newline (s : List Char) : ∀ l ∈ splitNl s, '\n' ∉ l := by
  induction s with
  | nil =>
    intro l hl
    simp [splitNl] at hl
    simp [hl]
  | cons c rest ih =>
    intro l hl
    rw [splitNl] at hl
    by_cases h : c = '\n'
    · rw [if_pos h] at hl
      rcases List.mem_cons.mp hl with rfl | hl2
      · simp
      · exact ih l hl2
    · rw [if_neg h] at hl
      rcases hs : splitNl rest with _ | ⟨x, xs⟩
      · exact absurd hs (splitNl_ne_nil rest)
      · rw [hs] at hl
        rcases List.mem_cons.mp hl with rfl | hl2
        · intro hmem
          rcases List.mem_cons.mp hmem with he | hx
          · exact h he.symm
          · exact ih x (by rw [hs]; exact List.mem_cons_self x xs) hx
        · exact ih l (by rw [hs]; exact List.mem_cons_of_mem x hl2)

theorem splitNl_single (l : Line) (h : '\n' ∉ l) : splitNl l = [l] := by
  induction l with
  | nil => rfl
  | cons c rest ih =>
    rw [splitNl]
    have hc : ¬ (c = '\n') := fun e => h (by rw [e]; exact List.mem_cons_self _ _)
    rw [if_neg hc, ih (fun hm => h (List.mem_cons_of_mem _ hm))]

theorem splitNl_append_nl (l : Line) (t : List Char) (h : '\n' ∉ l) :
    splitNl (l ++ '\n' :: t) = l :: splitNl t := by
  induction l with
  | nil => simp [splitNl]
  | cons c rest ih =>
    have hc : ¬ (c = '\n') := fun e => h (by rw [e]; exact List.mem_cons_self _ _)
    rw [List.cons_append, splitNl, if_neg hc, ih (fun hm => h (List.mem_cons_of_mem _ hm))]

theorem splitNl_joinNl (ls : List Line) (hne : ls ≠ []) (h : ∀ l ∈ ls, '\n' ∉ l) :
    splitNl (joinNl ls) = ls := by
  induction ls with
  | nil => exact absurd rfl hne
  | cons l rest ih =>
    rcases rest with _ | ⟨l2, rest2⟩
    · exact splitNl_single l (h l (List.mem_cons_self _ _))
    · have hj : joinNl (l :: l2 :: rest2) = l ++ '\n' :: joinNl (l2 :: rest2) := rfl
      rw [hj, splitNl_append_nl l _ (h l (List.mem_cons_self _ _)),
        ih (by simp) (fun x hx => h x (List.mem_cons_of_mem _ hx))]

theorem enumFrom_filter_map_snd (p : Line → Bool) (ls : List Line) :
    ∀ n : ℕ, (((List.enumFrom n ls).filter (fun il => p il.2)).map (fun il => il.2)) =
      ls.filter p := by
  induction ls with
  | nil => intro n; rfl
  | cons l rest ih =>
    intro n
    rw [List.enumFrom]
    by_cases h : p l = true
    · rw [List.filter_cons_of_pos (by simpa using h), List.filter_cons_of_pos h,
        List.map_cons, ih]
    · rw [List.filter_cons_of_neg (by simpa using h), List.filter_cons_of_neg (by simpa using h)]
      exact ih (n + 1)

/-- C9: the parser is a total function and garbage does not derail it — the
segments parsed from any text coincide (up to the necessarily renumbered
source back-references, which `strippedPath` discards) with those parsed from
the text in which every line whose leading token is not a recognized command
has been removed.  Unrecognized and malformed lines are silently dropped and
the remaining lines parse exactly as if the garbage were absent. -/
theorem c9_garbage_lines_are_dropped (text : List Char) :
    (parsePaths text).map strippedPath =
      (parsePaths (joinNl ((splitNl text).filter recognizedLine))).map strippedPath := by
  have h1 : (parsePaths text).map strippedPath =
      ((runLines ⟨⟨0, 0⟩, none⟩
        (((splitNl text).enum).filter (fun il => recognizedLine il.2))).1).map strippedPath := by
    rw [parsePaths, parseGCode, runLines_filter_paths]
  have hsnd : (((splitNl text).enum.filter (fun il => recognizedLine il.2)).map
      (fun il => il.2)) = (splitNl text).filter recognizedLine :=
    enumFrom_filter_map_snd recognizedLine (splitNl text) 0
  by_cases hk : (splitNl text).filter recognizedLine = []
  · have hemp : ((splitNl text).enum.filter (fun il => recognizedLine il.2)) = [] := by
      have h2 := hsnd
      rw [hk] at h2
      exact List.map_eq_nil_iff.mp h2
    rw [h1, hemp, hk]
    rfl
  · have hnl : ∀ l ∈ (splitNl text).filter recognizedLine, '\n' ∉ l :=
      fun l hl => splitNl_no_newline text l (List.mem_of_mem_filter hl)
    rw [h1, parsePaths, parseGCode, splitNl_joinNl _ hk hnl]
    apply runLines_stripped_reindex
    rw [hsnd]
    have h3 : (((splitNl text).filter recognizedLine).enum).map (fun il => il.2) =
        (splitNl text).filter recognizedLine := by
      simp
    rw [h3]

theorem map_replace_eq_self (k : (Bool × ℤ) × (Bool × ℤ)) (p : Point2D) :
    ∀ m : List (((Bool × ℤ) × (Bool × ℤ)) × Point2D), (∀ e ∈ m, e.1 ≠ k) →
      m.map (fun e => if e.1 = k then (e.1, p) else e) = m := by
  intro m
  induction m with
  | nil => intro _; rfl
  | cons e m' ih =>
    intro h
    rw [List.map_cons, if_neg (h e (List.mem_cons_self _ _)),
      ih (fun e2 he2 => h e2 (List.mem_cons_of_mem _ he2))]

theorem filter_sum_replace (φ : Point2D → ℚ) (p : Point2D)
    (keep : ((Bool × ℤ) × (Bool × ℤ)) → Bool) :
    ∀ m : List (((Bool × ℤ) × (Bool × ℤ)) × Point2D),
      (m.map (fun e => e.1)).Nodup →
      m.any (fun e => e.1 = ptKey p) = true →
      (((m.map (fun e => if e.1 = ptKey p then (e.1, p) else e)).filter
          (fun e => keep e.1)).map (fun e => φ e.2)).sum =
        ((m.filter (fun e => keep e.1 && !(decide (ptKey p = e.1)))).map
          (fun e => φ e.2)).sum + (if keep (ptKey p) = true then φ p else 0) := by
  intro m
  induction m with
  | nil =>
    intro _ hm
    simp at hm
  | cons e m' ih =>
    intro hnd hm
    rw [List.map_cons, List.nodup_cons] at hnd
    by_cases hek : e.1 = ptKey p
    · have hm' : ∀ e2 ∈ m', e2.1 ≠ ptKey p := by
        intro e2 he2 h2
        exact hnd.1 (by rw [hek, ← h2]; exact List.mem_map_of_mem (fun x => x.1) he2)
      rw [List.map_cons, if_pos hek, map_replace_eq_self (ptKey p) p m' hm']
      have hfilt : m'.filter (fun e2 => keep e2.1 && !(decide (ptKey p = e2.1))) =
          m'.filter (fun e2 => keep e2.1) := by
        apply List.filter_congr
        intro e2 he2
        have : decide (ptKey p = e2.1) = false := by
          simp only [decide_eq_false_iff_not]
          exact fun h2 => hm' e2 he2 h2.symm
        rw [this]
        simp
      by_cases hk : keep (ptKey p) = true
      · rw [List.filter_cons_of_pos (by simpa [hek] using hk)]
        rw [List.filter_cons_of_neg (by simp [hek])]
        rw [hfilt]
        simp [hk, hek]
        ring
      · rw [List.filter_cons_of_neg (by simpa [hek] using hk)]
        rw [List.filter_cons_of_neg (by simp [hek])]
        rw [hfilt]
        simp [hk]
    · have hm2 : m'.any (fun e2 => e2.1 = ptKey p) = true := by
        rcases List.any_eq_true.mp hm with ⟨e2, he2, h2⟩
        rcases List.mem_cons.mp he2 with rfl | he3
        · exact absurd (by simpa using h2) hek
        · exact List.any_eq_true.mpr ⟨e2, he3, h2⟩
      rw [List.map_cons, if_neg hek]
      have hd : decide (ptKey p = e.1) = false := by
        simp only [decide_eq_false_iff_not]
        exact fun h2 => hek h2.symm
      by_cases hk : keep e.1 = true
      · rw [List.filter_cons_of_pos (by simpa using hk),
          List.filter_cons_of_pos (by simp [hk, hd])]
        simp only [List.map_cons, List.sum_cons]
        rw [ih hnd.2 hm2]
        ring
      · rw [List.filter_cons_of_neg (by simpa using hk),
          List.filter_cons_of_neg (by simp [hk])]
        exact ih hnd.2 hm2

theorem filter_sum_append (φ : Point2D → ℚ) (p : Point2D)
    (keep : ((Bool × ℤ) × (Bool × ℤ)) → Bool)
    (m : List (((Bool × ℤ) × (Bool × ℤ)) × Point2D))
    (hm : m.any (fun e => e.1 = ptKey p) = false) :
    (((m ++ [(ptKey p, p)]).filter (fun e => keep e.1)).map (fun e => φ e.2)).sum =
      ((m.filter (fun e => keep e.1 && !(decide (ptKey p = e.1)))).map
        (fun e => φ e.2)).sum + (if keep (ptKey p) = true then φ p else 0) := by
  have hfm : m.filter (fun e => keep e.1 && !(decide (ptKey p = e.1))) =
      m.filter (fun e => keep e.1) := by
    apply List.filter_congr
    intro e he
    have : decide (ptKey p = e.1) = false := by
      simp only [decide_eq_false_iff_not]
      intro h2
      rw [List.any_eq_false] at hm
      exact hm e he (by simp [h2])
    rw [this]
    simp
  rw [hfm, List.filter_append, List.map_append, List.sum_append]
  by_cases hk : keep (ptKey p) = true <;> simp [hk]

theorem insertPt_keys_nodup (m : List (((Bool × ℤ) × (Bool × ℤ)) × Point2D)) (p : Point2D)
    (hnd : (m.map (fun e => e.1)).Nodup) : ((insertPt m p).map (fun e => e.1)).Nodup := by
  rw [insertPt]
  by_cases hm : m.any (fun e => e.1 = ptKey p) = true
  · rw [if_pos hm]
    have : (m.map (fun e => if e.1 = ptKey p then (e.1, p) else e)).map (fun e => e.1) =
        m.map (fun e => e.1) := by
      rw [List.map_map]
      apply List.map_congr_left
      intro e _
      by_cases he : e.1 = ptKey p <;> simp [he]
    rw [this]
    exact hnd
  · rw [if_neg hm]
    rw [List.map_append, List.map_singleton]
    rw [List.nodup_append]
    refine ⟨hnd, List.nodup_singleton _, ?_⟩
    intro k hk
    simp only [List.mem_singleton]
    intro he
    rcases List.mem_map.mp hk with ⟨e, he2, rfl⟩
    exact hm (List.any_eq_true.mpr ⟨e, he2, by simp [he]⟩)

theorem foldl_insertPt_sum (φ : Point2D → ℚ) :
    ∀ (l : List Point2D) (m : List (((Bool × ℤ) × (Bool × ℤ)) × Point2D)),
      (m.map (fun e => e.1)).Nodup →
      (((l.foldl insertPt m).map (fun e => φ e.2)).sum =
        ((m.filter (fun e => !(l.any (fun q => decide (ptKey q = e.1))))).map
          (fun e => φ e.2)).sum + ((dedupLast l).map φ).sum) := by
  intro l
  induction l with
  | nil =>
    intro m hnd
    simp [dedupLast]
  | cons p rest ih =>
    intro m hnd
    rw [List.foldl_cons, ih (insertPt m p) (insertPt_keys_nodup m p hnd)]
    have hstep : (((insertPt m p).filter
          (fun e => !(rest.any (fun q => decide (ptKey q = e.1))))).map
          (fun e => φ e.2)).sum =
        ((m.filter (fun e => (!(rest.any (fun q => decide (ptKey q = e.1)))) &&
          !(decide (ptKey p = e.1)))).map (fun e => φ e.2)).sum +
          (if (!(rest.any (fun q => decide (ptKey q = ptKey p)))) = true then φ p else 0) := by
      by_cases hm : m.any (fun e => e.1 = ptKey p) = true
      · rw [insertPt, if_pos hm]
        exact filter_sum_replace φ p
          (fun k => !(rest.any (fun q => decide (ptKey q = k)))) m hnd hm
      · rw [insertPt, if_neg hm]
        exact filter_sum_append φ p
          (fun k => !(rest.any (fun q => decide (ptKey q = k)))) m
          (Bool.eq_false_iff.mpr hm)
    rw [hstep]
    have hfc : m.filter (fun e => (!(rest.any (fun q => decide (ptKey q = e.1)))) &&
        !(decide (ptKey p = e.1))) =
        m.filter (fun e => !((p :: rest).any (fun q => decide (ptKey q = e.1)))) := by
      apply List.filter_congr
      intro e _
      simp only [List.any_cons, Bool.not_or]
      rw [Bool.and_comm]
    rw [hfc, dedupLast]
    by_cases hr : rest.any (fun q => decide (ptKey q = ptKey p)) = true
    · simp only [hr, if_pos]
      simp
    · simp only [Bool.eq_false_iff.mpr hr]
      simp only [Bool.not_false, if_pos, List.map_cons, List.sum_cons]
      have : (rest.any fun q => decide (ptKey q = ptKey p)) = false := Bool.eq_false_iff.mpr hr
      simp [this]
      ring

theorem sum_const_one_eq_length (l : List Point2D) :
    (l.map (fun _ => (1 : ℚ))).sum = (l.length : ℚ) := by
  induction l with
  | nil => simp
  | cons p rest ih => simp [ih, add_comm]

theorem entries_sum_const_one (m : List (((Bool × ℤ) × (Bool × ℤ)) × Point2D)) :
    (m.map (fun _ => (1 : ℚ))).sum = (m.length : ℚ) := by
  induction m with
  | nil => simp
  | cons _e rest ih => simp [ih, add_comm]

/-- C8: `getCentroid` is the arithmetic mean of the set of unique endpoint
positions — endpoints deduplicated by their coordinates rendered to 4 decimal
places (`toFixed(4)` keys: the rounded magnitude together with the rendered
sign, so a joint point shared by consecutive segments counts once, represented
by its last occurrence) — and is `{0,0}` for an empty segment sequence. -/
theorem c8_centroid_is_mean_of_unique_endpoints (paths : List GCodePath) :
    getCentroid paths = centroidSpec paths := by
  rw [getCentroid, centroidSpec]
  by_cases hp : paths.isEmpty
  · simp [hp]
  · simp only [hp, Bool.false_eq_true, if_false]
    have hnd : ((([] : List (((Bool × ℤ) × (Bool × ℤ)) × Point2D))).map
      (fun e => e.1)).Nodup := by simp
    have hx := foldl_insertPt_sum (fun pt => pt.x) (endpointsOf paths) [] hnd
    have hy := foldl_insertPt_sum (fun pt => pt.y) (endpointsOf paths) [] hnd
    have hlen := foldl_insertPt_sum (fun _ => (1 : ℚ)) (endpointsOf paths) [] hnd
    simp only [List.filter_nil, List.map_nil, List.sum_nil, zero_add] at hx hy hlen
    rw [entries_sum_const_one, sum_const_one_eq_length] at hlen
    simp only [List.map_map, List.length_map, Function.comp_def]
    refine congrArg₂ Point2D.mk ?_ ?_
    · rw [hx, hlen]
    · rw [hy, hlen]

theorem parseLineCmd_lineNumber (i : ℕ) (l : Line) (c : GCodeCommand)
    (h : parseLineCmd i l = some c) : c.lineNumber = i := by
  rw [parseLineCmd] at h
  by_cases hcl : cleanLine l = []
  · simp [hcl] at h
  · simp only [hcl, if_false] at h
    cases hm : matchCode (cleanLine l) with
    | none => rw [hm] at h; simp at h
    | some code =>
      rw [hm] at h
      simp only [Option.some.injEq] at h
      rw [← h]

theorem stepCommand_path_command (st : ParserState) (c : GCodeCommand) (p : GCodePath)
    (h : (stepCommand st c).1 = some p) : p.command = c := by
  rw [stepCommand] at h
  by_cases hm : isMoveCode c.code = true
  · simp only [hm, if_true] at h
    simp only [Option.some.injEq] at h
    rw [← h]
  · simp [hm] at h

theorem runLines_lineNumbers_sublist (pairs : List (ℕ × Line)) :
    ∀ st : ParserState, (((runLines st pairs).1).map
      (fun p => p.command.lineNumber)).Sublist (pairs.map (fun il => il.1)) := by
  induction pairs with
  | nil => intro st; simp [runLines]
  | cons il rest ih =>
    rcases il with ⟨i, l⟩
    intro st
    rw [runLines]
    cases hc : parseLineCmd i l with
    | none =>
      simp only [List.map_cons]
      exact (ih st).cons _
    | some c =>
      rcases hs : stepCommand st c with ⟨p?, st1⟩
      rcases hr : runLines st1 rest with ⟨ps, cs, stf⟩
      have hih := ih st1
      rw [hr] at hih
      simp only [hs, hr, List.map_cons, List.map_append]
      rcases p? with _ | p
      · simpa using hih.cons i
      · have hcmd : p.command = c := stepCommand_path_command st c p (by rw [hs])
        have hln : p.command.lineNumber = i := by
          rw [hcmd]
          exact parseLineCmd_lineNumber i l c hc
        simp only [Option.toList_some, List.singleton_append, List.map_cons, hln]
        exact hih.cons₂ i

theorem parsePaths_lineNumbers (text : List Char) :
    List.Pairwise (· < ·) ((parsePaths text).map (fun p => p.command.lineNumber)) ∧
      ∀ p ∈ parsePaths text, p.command.lineNumber < (splitNl text).length := by
  have hsub := runLines_lineNumbers_sublist (splitNl text).enum ⟨⟨0, 0⟩, none⟩
  have hfst : ((splitNl text).enum).map (fun il => il.1) =
      List.range (splitNl text).length := by
    simp [List.enum_map_fst]
  rw [hfst] at hsub
  constructor
  · exact List.Pairwise.sublist hsub (List.pairwise_lt_range _)
  · intro p hp
    have hmem : p.command.lineNumber ∈ List.range (splitNl text).length :=
      hsub.mem (List.mem_map_of_mem (fun p => p.command.lineNumber) hp)
    exact List.mem_range.mp hmem


theorem expLines_nil_paths (cc : ℚ) (ax : Axis) :
    ∀ (i : ℕ) (ls : List Line), expLines cc ax [] i ls = ls := by
  intro i ls
  induction ls generalizing i with
  | nil => rfl
  | cons l ls2 ih => rw [expLines, List.find?_nil, ih]

theorem expLines_cons_skip (cc : ℚ) (ax : Axis) (p : GCodePath) (paths : List GCodePath) :
    ∀ (ls : List Line) (i : ℕ),
      (∀ j, i ≤ j → j < i + ls.length →
        (!p.isRapid && decide (p.command.lineNumber = j)) = false) →
      expLines cc ax (p :: paths) i ls = expLines cc ax paths i ls := by
  intro ls
  induction ls with
  | nil => intro i _; rfl
  | cons l ls2 ih =>
    intro i h
    rw [expLines, expLines, List.find?_cons_of_neg, ih (i + 1)]
    · intro j h1 h2
      apply h j (by omega)
      have hlen : (l :: ls2).length = ls2.length + 1 := rfl
      omega
    · have := h i (le_refl i) (by simp)
      simp only [this]
      simp

theorem expLines_unchanged (cc : ℚ) (ax : Axis) (paths : List GCodePath) :
    ∀ (ls : List Line) (i : ℕ),
      (∀ j, i ≤ j → j < i + ls.length →
        paths.find? (fun p => !p.isRapid && decide (p.command.lineNumber = j)) = none) →
      expLines cc ax paths i ls = ls := by
  intro ls
  induction ls with
  | nil => intro i _; rfl
  | cons l ls2 ih =>
    intro i h
    rw [expLines, h i (le_refl i) (by simp), ih (i + 1) ?_]
    intro j h1 h2
    apply h j (by omega)
    have hlen : (l :: ls2).length = ls2.length + 1 := rfl
    omega

theorem expLines_append (cc : ℚ) (ax : Axis) (paths : List GCodePath) :
    ∀ (ls1 ls2 : List Line) (i : ℕ),
      expLines cc ax paths i (ls1 ++ ls2) =
        expLines cc ax paths i ls1 ++ expLines cc ax paths (i + ls1.length) ls2 := by
  intro ls1
  induction ls1 with
  | nil => intro ls2 i; simp [expLines]
  | cons l ls1b ih =>
    intro ls2 i
    rw [List.cons_append, expLines, expLines, ih ls2 (i + 1), List.cons_append]
    have : i + 1 + ls1b.length = i + (l :: ls1b).length := by simp; omega
    rw [this]

theorem corr_fold_text (L : List Line) (c : ℚ) (ax : Axis) :
    ∀ (paths : List GCodePath) (i : ℕ) (acc : CorrState),
      List.Pairwise (fun a b => a.command.lineNumber < b.command.lineNumber) paths →
      (∀ p ∈ paths, i ≤ p.command.lineNumber ∧ p.command.lineNumber < L.length) →
      acc.idx = i →
      (paths.foldl (corrStep L c ax) acc).out ++
          L.drop (paths.foldl (corrStep L c ax) acc).idx =
        acc.out ++ expLines c ax paths i (L.drop i) := by
  intro paths
  induction paths with
  | nil =>
    intro i acc _ _ hidx
    simp [expLines_nil_paths, hidx]
  | cons p rest ih =>
    intro i acc hpw hall hidx
    obtain ⟨hi_le, hn_lt⟩ := hall p (List.mem_cons_self _ _)
    rw [List.pairwise_cons] at hpw
    obtain ⟨hgt, hpw2⟩ := hpw
    rw [List.foldl_cons]
    by_cases hr : p.isRapid
    · have hstep : corrStep L c ax acc p =
          ⟨acc.cps ++ [p], acc.cfs ++ [0],
            acc.out ++ (L.drop acc.idx).take (p.command.lineNumber + 1 - acc.idx),
            max acc.idx (p.command.lineNumber + 1)⟩ := by
        rw [corrStep, if_pos hr]
      rw [hstep]
      have hmax : max acc.idx (p.command.lineNumber + 1) = p.command.lineNumber + 1 := by
        rw [hidx]; omega
      have hih := ih (p.command.lineNumber + 1)
        ⟨acc.cps ++ [p], acc.cfs ++ [0],
          acc.out ++ (L.drop acc.idx).take (p.command.lineNumber + 1 - acc.idx),
          max acc.idx (p.command.lineNumber + 1)⟩ hpw2
        (fun q hq => ⟨hgt q hq, (hall q (List.mem_cons_of_mem _ hq)).2⟩)
        (by simp [hmax])
      rw [hih]
      simp only [hidx]
      rw [List.append_assoc]
      congr 1
      rw [expLines_cons_skip c ax p rest _ i (fun j _ _ => by simp [hr])]
      have hdd : (L.drop i).drop (p.command.lineNumber + 1 - i) =
          L.drop (p.command.lineNumber + 1) := by
        rw [List.drop_drop]
        congr 1
        omega
      have hsplit : L.drop i =
          (L.drop i).take (p.command.lineNumber + 1 - i) ++ L.drop (p.command.lineNumber + 1) := by
        rw [← hdd, List.take_append_drop]
      have hlen_take : ((L.drop i).take (p.command.lineNumber + 1 - i)).length =
          p.command.lineNumber + 1 - i := by
        rw [List.length_take, List.length_drop]
        omega
      conv_rhs => rw [hsplit]
      rw [expLines_append, hlen_take]
      have harith : i + (p.command.lineNumber + 1 - i) = p.command.lineNumber + 1 := by omega
      rw [harith]
      congr 1
      refine (expLines_unchanged c ax rest _ i ?_).symm
      intro j _ hj2
      rw [hlen_take] at hj2
      rw [List.find?_eq_none]
      intro q hq
      have hq_gt := hgt q hq
      have : ¬ (q.command.lineNumber = j) := by omega
      simp [this]
    · have hstep : corrStep L c ax acc p =
          ⟨acc.cps ++ [{ p with feedrate := some (correctedFeed c ax p) }],
            acc.cfs ++ [corrFactor c ax p],
            acc.out ++ (L.drop acc.idx).take (p.command.lineNumber - acc.idx) ++
              [rewriteLine c ax p (L.getD (max acc.idx p.command.lineNumber) [])],
            max acc.idx p.command.lineNumber + 1⟩ := by
        rw [corrStep, if_neg hr]
      rw [hstep]
      have hmax : max acc.idx p.command.lineNumber = p.command.lineNumber := by
        rw [hidx]; omega
      have hih := ih (p.command.lineNumber + 1)
        ⟨acc.cps ++ [{ p with feedrate := some (correctedFeed c ax p) }],
          acc.cfs ++ [corrFactor c ax p],
          acc.out ++ (L.drop acc.idx).take (p.command.lineNumber - acc.idx) ++
            [rewriteLine c ax p (L.getD (max acc.idx p.command.lineNumber) [])],
          max acc.idx p.command.lineNumber + 1⟩ hpw2
        (fun q hq => ⟨hgt q hq, (hall q (List.mem_cons_of_mem _ hq)).2⟩)
        (by simp [hmax])
      rw [hih]
      have hmax2 : i ⊔ p.command.lineNumber = p.command.lineNumber := by omega
      simp only [hidx, hmax2]
      have hdd : (L.drop i).drop (p.command.lineNumber - i) = L.drop p.command.lineNumber := by
        rw [List.drop_drop]
        congr 1
        omega
      have hsplit : L.drop i =
          (L.drop i).take (p.command.lineNumber - i) ++ L.drop p.command.lineNumber := by
        rw [← hdd, List.take_append_drop]
      have hlen_take : ((L.drop i).take (p.command.lineNumber - i)).length =
          p.command.lineNumber - i := by
        rw [List.length_take, List.length_drop]
        omega
      have harith : i + (p.command.lineNumber - i) = p.command.lineNumber := by omega
      have hhead : L.drop p.command.lineNumber =
          L.getD p.command.lineNumber [] :: L.drop (p.command.lineNumber + 1) := by
        rw [List.getD_eq_getElem L [] hn_lt]
        exact List.drop_eq_getElem_cons hn_lt
      have hfirst : expLines c ax (p :: rest) i ((L.drop i).take (p.command.lineNumber - i)) =
          (L.drop i).take (p.command.lineNumber - i) := by
        apply expLines_unchanged
        intro j _ hj2
        rw [hlen_take] at hj2
        rw [List.find?_eq_none]
        intro q hq
        rcases List.mem_cons.mp hq with rfl | hq2
        · have : ¬ (q.command.lineNumber = j) := by omega
          simp [this]
        · have hq_gt := hgt q hq2
          have : ¬ (q.command.lineNumber = j) := by omega
          simp [this]
      rw [List.append_assoc, List.append_assoc]
      congr 1
      conv_rhs => rw [hsplit]
      rw [expLines_append, hlen_take, harith, hfirst]
      congr 1
      rw [hhead, expLines]
      rw [List.find?_cons_of_pos _ (by simp [hr])]
      rw [List.singleton_append]
      congr 1
      rw [expLines_cons_skip c ax p rest _ (p.command.lineNumber + 1)
        (fun j hj1 _ => by
          have : ¬ (p.command.lineNumber = j) := by omega
          simp [this])]

theorem applyCorrection_text (text : List Char) (c : ℚ) (ax : Axis) :
    (applyCorrection text c ax).correctedGCode =
      joinAll (expLines c ax (parsePaths text) 0 (splitNl text)) := by
  obtain ⟨hpw, hlt⟩ := parsePaths_lineNumbers text
  rw [applyCorrection]
  apply congrArg joinAll
  have hfold := corr_fold_text (splitNl text) c ax (parsePaths text) 0 ⟨[], [], [], 0⟩
    (by rwa [List.pairwise_map] at hpw)
    (fun p hp => ⟨Nat.zero_le _, hlt p hp⟩) rfl
  simpa using hfold

/-- C1 (amended): the corrected text is the source text line by line, where
every line not hosting a corrected controlled-move command is reproduced
byte-for-byte verbatim, and the line of each corrected controlled segment is
rewritten as `rewriteLine` describes: when the parsed command carries an `F`
parameter, the first substring matching `F\d+(\.\d+)?` is replaced by the
integer-rounded corrected feed rate (an `F` parameter written in a form that
regex does not match, such as `F+500` or `F.5`, leaves the line unchanged);
when the command has no `F` parameter, a new token is appended before any
trailing comment, else at line end. -/
theorem c1_corrected_text_linewise (text : List Char) (c : ℚ) (ax : Axis) :
    (applyCorrection text c ax).correctedGCode =
      joinAll (expLines c ax (parsePaths text) 0 (splitNl text)) :=
  applyCorrection_text text c ax

/-- C5 (amended): at coefficient `0` every correction factor is `0`; corrected
segments keep their feed rate when it is defined, while segments with an
undefined feed rate get `feedrate = 0` (not `undefined`); and the corrected
text is unchanged except on controlled-move lines, whose plain `F\d+(\.\d+)?`
token is re-emitted at the integer-rounded original value, and when the
command carries no `F` parameter a new token holding the integer-rounded
modal feed rate in force for the segment (`F0` when no feed rate was ever
set) is appended — so the run is a no-op only up to these re-emissions. -/
theorem c5_zero_coefficient_behavior (text : List Char) (ax : Axis) :
    (applyCorrection text 0 ax).correctionFactors =
      List.replicate (parsePaths text).length 0 ∧
    (applyCorrection text 0 ax).correctedPaths.map (fun p => p.feedrate) =
      (parsePaths text).map (fun p =>
        if p.isRapid then p.feedrate else some (p.feedrate.getD 0)) ∧
    (applyCorrection text 0 ax).correctedGCode =
      joinAll (expLines 0 ax (parsePaths text) 0 (splitNl text)) := by
  refine ⟨?_, ?_, applyCorrection_text text 0 ax⟩
  · rw [applyCorrection_factors]
    rw [show (parsePaths text).length = ((parsePaths text).map (corrFactor 0 ax)).length by simp]
    apply List.eq_replicate_of_mem
    intro b hb
    rcases List.mem_map.mp hb with ⟨p, _, rfl⟩
    by_cases hr : p.isRapid <;> simp [corrFactor, hr]
  · rw [applyCorrection_paths, List.map_map]
    apply List.map_congr_left
    intro p _
    by_cases hr : p.isRapid
    · simp [hr]
    · simp [hr, correctedFeed]
